import Mathlib

/-!
Shallow embedding of the flux-apps-dns-manager reconciliation core:
`src/services/appsDnsManager.js`, `src/services/fluxApi.js`,
`src/services/dnsGateway.js` and `config/default.js`, `config/gamesConfig.js`.

JavaScript `Map`s are modelled as association lists (`mapLookup`,
`mapInsert`, `mapErase` mirror `get`/`set`/`delete`), JS `Set`s of strings
as lists used only through membership, timestamps as `Nat` milliseconds,
and the network as explicit oracles: `fdm` for the FDM `/appips` endpoint
response, `createOk` / `deleteOk` for the DNS-gateway outcome of each
upsert / delete call.  Requests actually issued to the gateway are
collected as explicit event lists.
-/

namespace FluxDns

/-! ### JS string primitives -/

/-- JS `s.split(':')[0]`: the characters of `s` before the first `':'`. -/
def splitHead (s : String) : String :=
  String.mk (s.toList.takeWhile (fun c => decide (c ≠ ':')))

/-- JS `s.replace(/\[|\]/g, '')`: drop every `'['` and `']'`. -/
def stripBrackets (s : String) : String :=
  String.mk (s.toList.filter (fun c => decide (c ≠ '[') && decide (c ≠ ']')))

/-- One element of `dnsGateway.cleanIPs`: `ip.split(':')[0]` then bracket removal. -/
def cleanIP (ip : String) : String :=
  stripBrackets (splitHead ip)

/-- `dnsGateway.cleanIPs` (dnsGateway.js lines 59-64). -/
def cleanIPs (ips : List String) : List String :=
  ips.map cleanIP

/-- JS `String.prototype.toLowerCase` restricted to a single character:
ASCII `A`-`Z` map down by 32; the two non-ASCII code points whose JS
lowercasing reaches an ASCII letter (`U+212A` KELVIN SIGN and `U+0130`
LATIN CAPITAL LETTER I WITH DOT ABOVE, whose lowercased string contains
`i`) are mapped accordingly; everything else is unchanged. -/
def jsToLower (c : Char) : Char :=
  if 'A' ≤ c ∧ c ≤ 'Z' then Char.ofNat (c.toNat + 32)
  else if c = Char.ofNat 0x212A then 'k'
  else if c = Char.ofNat 0x0130 then 'i'
  else c

/-- JS `s.toLowerCase()` under the single-character model above. -/
def jsStringToLower (s : String) : String :=
  String.mk (s.toList.map jsToLower)

/-- `strStarts pre s`: the character list `pre` is an initial segment of `s`
(JS `s.startsWith(pre)`). -/
def strStarts : List Char → List Char → Bool
  | [], _ => true
  | _ :: _, [] => false
  | a :: as, b :: bs => a == b && strStarts as bs

/-- `strHasSub sub s`: `sub` occurs contiguously inside `s`
(JS `s.includes(sub)`). -/
def strHasSub (sub : List Char) : List Char → Bool
  | [] => strStarts sub []
  | c :: t => strStarts sub (c :: t) || strHasSub sub t

/-- JS `s.includes(sub)` on strings. -/
def jsIncludes (s sub : String) : Bool :=
  strHasSub sub.toList s.toList

/-! ### Association-list model of JS `Map` -/

/-- JS `map.get(k)` (`undefined` becomes `none`). -/
def mapLookup {α : Type} : List (String × α) → String → Option α
  | [], _ => none
  | (k', v) :: t, k => if k' = k then some v else mapLookup t k

/-- JS `map.set(k, v)`: replace the binding of `k` or append it. -/
def mapInsert {α : Type} : List (String × α) → String → α → List (String × α)
  | [], k, v => [(k, v)]
  | (k', v') :: t, k, v =>
    if k' = k then (k, v) :: t else (k', v') :: mapInsert t k v

/-- JS `map.delete(k)`: remove the binding(s) of `k`. -/
def mapErase {α : Type} (m : List (String × α)) (k : String) : List (String × α) :=
  m.filter (fun p => decide (p.1 ≠ k))

/-! ### Configuration (config/default.js, config/gamesConfig.js) -/

/-- One entry of `config.dns.zones`: `{ name, ttl }` (zone-local `fdm`
settings are not read by the reconciliation core). -/
structure Zone where
  name : String
  ttl : Nat
deriving DecidableEq

/-- The configuration keys the reconciliation core reads.  `dnsTtl` and
`dnsZone` model the JS property reads `config.dns.ttl` and
`config.dns.zone`; `config/default.js` declares neither key, so in the
shipped configuration both reads yield `undefined` (`none`). -/
structure Config where
  zones : List Zone
  deletionGracePeriodMs : Nat
  gameTypes : List String
  dnsTtl : Option Nat
  dnsZone : Option String

/-- `config.dns.zones` from `config/default.js`. -/
def defaultZones : List Zone :=
  [⟨"app2.runonflux.io", 300⟩]

/-- `gameTypes` from `config/gamesConfig.js`. -/
def defaultGameTypes : List String :=
  ["minecraft", "palworld", "enshrouded", "rustserver", "ark", "valheim",
   "terraria", "satisfactory", "conan", "sevendays", "teamspeak"]

/-- The shipped configuration (`config/default.js`): one zone, a one-hour
grace period, and no `dns.ttl` / `dns.zone` keys. -/
def defaultConfig : Config :=
  ⟨defaultZones, 3600000, defaultGameTypes, none, none⟩

/-! ### fluxApi.js -/

/-- A component of a composed app specification. -/
structure ComposeComponent where
  containerData : Option String
deriving DecidableEq

/-- The fields of an application specification the service reads. -/
structure AppSpec where
  name : String
  version : Nat
  containerData : Option String
  compose : Option (List ComposeComponent)
deriving DecidableEq

/-- `fluxApi.getFdmIndex` (fluxApi.js lines 18-30): partition on the
lowercased leading character; `h`-`n` to 2, `o`-`u` to 3, `v`-`z` to 4,
everything else (the empty name included) to 1. -/
def getFdmIndex (appName : String) : Nat :=
  match appName.toList with
  | [] => 1
  | c :: _ =>
    let f := jsToLower c
    if 'h' ≤ f ∧ f ≤ 'n' then 2
    else if 'o' ≤ f ∧ f ≤ 'u' then 3
    else if 'v' ≤ f ∧ f ≤ 'z' then 4
    else 1

/-- `fluxApi.getAppMasterIpFromFdm` (fluxApi.js lines 48-77), with the
network abstracted by `fdm : String → Option (List String)`: `some ips`
models a `success` response carrying `data.ips`, `none` models every
failure, 404 and 503 path.  On a non-empty list the first IP is returned
with `split(':')[0]` applied. -/
def getAppMasterIpFromFdm (fdm : String → Option (List String)) (appName : String) :
    Option String :=
  match fdm appName with
  | none => none
  | some [] => none
  | some (ip0 :: _) => some (splitHead ip0)

/-- `fluxApi.isGModeApp` (fluxApi.js lines 150-161). -/
def isGModeApp (app : AppSpec) : Bool :=
  if app.version ≤ 3 then
    match app.containerData with
    | some cd => jsIncludes cd "g:"
    | none => false
  else
    match app.compose with
    | some comps =>
      comps.any (fun comp =>
        match comp.containerData with
        | some cd => jsIncludes cd "g:"
        | none => false)
    | none => false

/-- `fluxApi.isGameApp` (fluxApi.js lines 169-177): case-insensitive
any-match of the configured name beginnings. -/
def isGameApp (appName : String) (gameTypes : List String) : Bool :=
  gameTypes.any (fun gt =>
    strStarts (jsStringToLower gt).toList (jsStringToLower appName).toList)

/-- `fluxApi.filterGameApps` (fluxApi.js lines 185-197). -/
def filterGameApps (appSpecs : List AppSpec) (gameTypes : List String) : List AppSpec :=
  appSpecs.filter (fun app => isGModeApp app && isGameApp app.name gameTypes)

/-! ### dnsGateway.js -/

/-- The JSON body POSTed by `createGameDNSRecords`
(`{name, record_type, content, ttl}`); `ttl := none` models a JSON field
whose value is `undefined` (dropped on serialization). -/
structure DNSPostBody where
  name : String
  record_type : String
  content : List String
  ttl : Option Nat
deriving DecidableEq

/-- An upsert request issued to the gateway: the zone in the URL and the
POST body. -/
structure UpsertRequest where
  zone : Option String
  body : DNSPostBody
deriving DecidableEq

/-- `dnsGateway.createGameDNSRecords` (dnsGateway.js lines 75-104) up to
the point the POST is issued: `none` models the thrown errors (client not
ready, or no server IPs); otherwise the issued request.  The function has
only the three parameters `(appName, serverIPs, zone)`; the body's `ttl`
is the read `config.dns.ttl`.  `ready` models `isReady()`. -/
def createGameDNSRecords (ready : Bool) (cfg : Config) (appName : String)
    (serverIPs : List String) (zone : Option String) : Option UpsertRequest :=
  if !ready then none
  else if serverIPs.isEmpty then none
  else
    some ⟨zone.orElse (fun _ => cfg.dnsZone),
      ⟨appName, "A", cleanIPs serverIPs, cfg.dnsTtl⟩⟩

/-- One delete call issued by `deleteGameDNSRecords` for `(app, zone)`;
`ok` records whether the gateway call succeeded (the caller in
`handleRemovedApps` catches a failure and continues). -/
structure DeleteEvent where
  app : String
  zone : String
  ok : Bool
deriving DecidableEq

/-! ### appsDnsManager.js -/

/-- The nested cache `appsDNSState`: app name to (zone name to last
written IP list). -/
def DNSState : Type := List (String × List (String × List String))

/-- The three process-lifetime caches of appsDnsManager.js. -/
structure ManagerState where
  appsDNSState : List (String × List (String × List String))
  lastSeenApps : List String
  appLastSeenTimestamps : List (String × Nat)
deriving DecidableEq

/-- The `Set` comparison inside `hasIPsChanged` (appsDnsManager.js lines
37-47): `new Set(xs)` is modelled by `xs.dedup`, the `size` check by the
dedup lengths, and the loop by `any` over missing membership. -/
def ipSetsDiffer (cachedState currentIPs : List String) : Bool :=
  if cachedState.dedup.length ≠ currentIPs.dedup.length then true
  else currentIPs.dedup.any (fun ip => !(cachedState.dedup.contains ip))

/-- `hasIPsChanged` (appsDnsManager.js lines 30-48): true when no cache
entry exists; otherwise the JS `Set` comparison `ipSetsDiffer`. -/
def hasIPsChanged (state : List (String × List (String × List String)))
    (appName : String) (currentIPs : List String) (zone : String) : Bool :=
  match mapLookup state appName with
  | none => true
  | some appState =>
    match mapLookup appState zone with
    | none => true
    | some cachedState => ipSetsDiffer cachedState currentIPs

/-- `updateDNSState` (appsDnsManager.js lines 56-63). -/
def updateDNSState (state : List (String × List (String × List String)))
    (appName : String) (ips : List String) (zone : String) :
    List (String × List (String × List String)) :=
  let appState := (mapLookup state appName).getD []
  mapInsert state appName (mapInsert appState zone ips)

/-- The per-zone loop of `processApp` (appsDnsManager.js lines 87-105):
for each zone, skip when `hasIPsChanged` is false; otherwise attempt
`createGameDNSRecords` (a `none` result models its throw, caught and
skipped), record the issued request, and on gateway success (`createOk`)
call `updateDNSState` and count the zone. -/
def processAppZones (cfg : Config) (ready : Bool) (createOk : String → String → Bool)
    (appName cleanMasterIP : String) :
    List Zone → List (String × List (String × List String)) →
    List (String × List (String × List String)) × List UpsertRequest × Nat
  | [], state => (state, [], 0)
  | zone :: rest, state =>
    if !(hasIPsChanged state appName [cleanMasterIP] zone.name) then
      processAppZones cfg ready createOk appName cleanMasterIP rest state
    else
      match createGameDNSRecords ready cfg appName [cleanMasterIP] (some zone.name) with
      | none => processAppZones cfg ready createOk appName cleanMasterIP rest state
      | some req =>
        if createOk appName zone.name then
          let state' := updateDNSState state appName [cleanMasterIP] zone.name
          let r := processAppZones cfg ready createOk appName cleanMasterIP rest state'
          (r.1, req :: r.2.1, r.2.2 + 1)
        else
          let r := processAppZones cfg ready createOk appName cleanMasterIP rest state
          (r.1, req :: r.2.1, r.2.2)

/-- `processApp` (appsDnsManager.js lines 71-108): fetch the master IP from
FDM, bail out when absent, strip brackets, then run the per-zone loop. -/
def processApp (cfg : Config) (ready : Bool) (fdm : String → Option (List String))
    (createOk : String → String → Bool) (app : AppSpec)
    (state : List (String × List (String × List String))) :
    List (String × List (String × List String)) × List UpsertRequest × Nat :=
  match getAppMasterIpFromFdm fdm app.name with
  | none => (state, [], 0)
  | some masterIP =>
    let cleanMasterIP := stripBrackets masterIP
    processAppZones cfg ready createOk app.name cleanMasterIP cfg.zones state

/-- The per-app loop of `runProcessingLoop` (appsDnsManager.js lines
207-213), threading `appsDNSState` and accumulating issued requests and
the zone-update count. -/
def processApps (cfg : Config) (ready : Bool) (fdm : String → Option (List String))
    (createOk : String → String → Bool) :
    List AppSpec → List (String × List (String × List String)) →
    List (String × List (String × List String)) × List UpsertRequest × Nat
  | [], state => (state, [], 0)
  | app :: rest, state =>
    let r := processApp cfg ready fdm createOk app state
    let r' := processApps cfg ready fdm createOk rest r.1
    (r'.1, r.2.1 ++ r'.2.1, r.2.2 + r'.2.2)

/-- `deleteGameDNSRecords` issued once per configured zone (appsDnsManager.js
lines 150-158): the request always goes out for every zone, `deleteOk`
records each call's outcome (a failure is caught and the loop continues). -/
def deleteAllZones (zones : List Zone) (deleteOk : String → String → Bool)
    (app : String) : List DeleteEvent :=
  zones.map (fun z => ⟨app, z.name, deleteOk app z.name⟩)

/-- The body of the removed-apps loop of `handleRemovedApps`
(appsDnsManager.js lines 124-165) for one removed app: skip when no
non-empty cache entry exists; start tracking when not yet tracked; once
the grace period has elapsed, issue deletes for every zone and erase both
the cache entry and the timestamp. -/
def processRemovedApp (cfg : Config) (deleteOk : String → String → Bool)
    (now : Nat) (app : String) (st : ManagerState) : ManagerState × List DeleteEvent :=
  match mapLookup st.appsDNSState app with
  | none => (st, [])
  | some cachedState =>
    if cachedState.length = 0 then (st, [])
    else
      match mapLookup st.appLastSeenTimestamps app with
      | none =>
        ({ st with appLastSeenTimestamps := mapInsert st.appLastSeenTimestamps app now }, [])
      | some firstMissingTime =>
        if cfg.deletionGracePeriodMs ≤ now - firstMissingTime then
          ({ st with
              appsDNSState := mapErase st.appsDNSState app,
              appLastSeenTimestamps := mapErase st.appLastSeenTimestamps app },
           deleteAllZones cfg.zones deleteOk app)
        else (st, [])

/-- The removed-apps loop of `handleRemovedApps`, folded left to right. -/
def processRemovedApps (cfg : Config) (deleteOk : String → String → Bool) (now : Nat) :
    List String → ManagerState → ManagerState × List DeleteEvent
  | [], st => (st, [])
  | app :: rest, st =>
    let r := processRemovedApp cfg deleteOk now app st
    let r' := processRemovedApps cfg deleteOk now rest r.1
    (r'.1, r.2 ++ r'.2)

/-- The reappearance loop of `handleRemovedApps` (appsDnsManager.js lines
167-173): for every currently seen app with a pending timestamp, delete
the timestamp. -/
def clearReappeared (timestamps : List (String × Nat)) :
    List String → List (String × Nat)
  | [] => timestamps
  | app :: rest =>
    clearReappeared
      (if (mapLookup timestamps app).isSome then mapErase timestamps app
       else timestamps) rest

/-- `handleRemovedApps` (appsDnsManager.js lines 115-174): compute the
removed set (`lastSeenApps` minus `currentSeenApps`), run the removed-apps
loop, then clear timestamps of reappeared apps. -/
def handleRemovedApps (cfg : Config) (deleteOk : String → String → Bool)
    (currentSeenApps : List String) (now : Nat) (st : ManagerState) :
    ManagerState × List DeleteEvent :=
  let removedApps := st.lastSeenApps.filter (fun a => decide (a ∉ currentSeenApps))
  let r := processRemovedApps cfg deleteOk now removedApps st
  ({ r.1 with appLastSeenTimestamps := clearReappeared r.1.appLastSeenTimestamps currentSeenApps },
   r.2)

/-- The result of one loop iteration: the new manager state, the upsert
requests issued, and the delete calls issued. -/
structure LoopResult where
  state : ManagerState
  upserts : List UpsertRequest
  deletes : List DeleteEvent
deriving DecidableEq

/-- `runProcessingLoop` (appsDnsManager.js lines 179-228) for one
iteration, with the inventory fetch result `specs` given as input: when
empty, return at once leaving every cache untouched; otherwise classify,
process each matched app, handle removals, and replace `lastSeenApps`. -/
def runProcessingLoop (cfg : Config) (ready : Bool) (specs : List AppSpec)
    (fdm : String → Option (List String)) (createOk deleteOk : String → String → Bool)
    (now : Nat) (st : ManagerState) : LoopResult :=
  if specs.isEmpty then ⟨st, [], []⟩
  else
    let matchedApps := filterGameApps specs cfg.gameTypes
    let currentSeenApps := matchedApps.map (fun a => a.name)
    let r := processApps cfg ready fdm createOk matchedApps st.appsDNSState
    let r' :=
      handleRemovedApps cfg deleteOk currentSeenApps now { st with appsDNSState := r.1 }
    ⟨{ r'.1 with lastSeenApps := currentSeenApps }, r.2.1, r'.2⟩

/-! ### Map lemmas -/

theorem mapLookup_insert {α : Type} (m : List (String × α)) (k k' : String) (v : α) :
    mapLookup (mapInsert m k v) k' = if k = k' then some v else mapLookup m k' := by
  induction m with
  | nil => simp [mapInsert, mapLookup]
  | cons p t ih =>
    obtain ⟨pk, pv⟩ := p
    by_cases hpk : pk = k
    · subst hpk
      by_cases hk' : pk = k' <;> simp [mapInsert, mapLookup, hk']
    · simp only [mapInsert, if_neg hpk, mapLookup]
      by_cases hpk' : pk = k'
      · subst hpk'
        have : ¬ k = pk := fun h => hpk h.symm
        simp [mapLookup, this]
      · simp [mapLookup, hpk', ih]

theorem mapLookup_erase {α : Type} (m : List (String × α)) (k k' : String) :
    mapLookup (mapErase m k) k' = if k = k' then none else mapLookup m k' := by
  induction m with
  | nil => simp [mapErase, mapLookup]
  | cons p t ih =>
    obtain ⟨pk, pv⟩ := p
    by_cases hpk : pk = k
    · subst hpk
      by_cases hk' : pk = k'
      · subst hk'
        simp [mapErase, mapLookup] at ih ⊢
        simpa using ih
      · have : ¬ pk = k' := hk'
        simp [mapErase, mapLookup, this] at ih ⊢
        simpa [this] using ih
    · by_cases hk' : pk = k'
      · subst hk'
        have : ¬ k = pk := fun h => hpk h.symm
        simp [mapErase, mapLookup, hpk, this]
      · simp [mapErase, mapLookup, hpk, hk'] at ih ⊢
        exact ih

/-! ### Claim C1: the state-store change check -/

theorem dedup_length_eq_of_mem_iff {a b : List String} (h : ∀ x, x ∈ a ↔ x ∈ b) :
    a.dedup.length = b.dedup.length := by
  have hf : a.toFinset = b.toFinset := Finset.ext (fun x => by
    simp only [List.mem_toFinset]
    exact h x)
  rw [← List.card_toFinset, ← List.card_toFinset, hf]

theorem mem_iff_of_subset_of_dedup_length {cached cur : List String}
    (hlen : cached.dedup.length = cur.dedup.length)
    (hsub : ∀ x ∈ cur, x ∈ cached) : ∀ x, x ∈ cached ↔ x ∈ cur := by
  have hfin : cur.toFinset ⊆ cached.toFinset := by
    intro x hx
    rw [List.mem_toFinset] at hx ⊢
    exact hsub x hx
  have hcard : cached.toFinset.card ≤ cur.toFinset.card := by
    rw [List.card_toFinset, List.card_toFinset, hlen]
  have heq := Finset.eq_of_subset_of_card_le hfin hcard
  intro x
  rw [← List.mem_toFinset, ← heq, List.mem_toFinset]

theorem ipSetsDiffer_eq_false_iff (cached cur : List String) :
    ipSetsDiffer cached cur = false ↔ ∀ ip, ip ∈ cached ↔ ip ∈ cur := by
  unfold ipSetsDiffer
  by_cases hlen : cached.dedup.length = cur.dedup.length
  · rw [if_neg (by simp [hlen])]
    rw [List.any_eq_false]
    constructor
    · intro h
      refine mem_iff_of_subset_of_dedup_length hlen ?_
      intro x hx
      have hx' := h x (List.mem_dedup.2 hx)
      simp only [Bool.not_eq_true', Bool.not_eq_false] at hx'
      have : x ∈ cached.dedup := by simpa using hx'
      exact List.mem_dedup.1 this
    · intro hm x hx
      have : x ∈ cached := (hm x).2 (List.mem_dedup.1 hx)
      simp [List.mem_dedup.2 this]
  · rw [if_pos (by simp [hlen])]
    simp only [Bool.true_eq_false, false_iff]
    intro hm
    exact hlen (dedup_length_eq_of_mem_iff hm)

/-- Claim C1 (amended): `hasIPsChanged` returns false exactly when a cache
entry exists for the (app, zone) pair and the cached and current IP lists
have the same set of elements (order- and multiplicity-independent); in
every other case — differing element sets or a missing entry — it returns
true. -/
theorem hasIPsChanged_iff_set_eq (state : List (String × List (String × List String)))
    (appName : String) (currentIPs : List String) (zone : String) :
    hasIPsChanged state appName currentIPs zone = false ↔
      ∃ appState cachedState, mapLookup state appName = some appState ∧
        mapLookup appState zone = some cachedState ∧
        ∀ ip, ip ∈ cachedState ↔ ip ∈ currentIPs := by
  cases h1 : mapLookup state appName with
  | none => simp [hasIPsChanged, h1]
  | some appState =>
    cases h2 : mapLookup appState zone with
    | none => simp [hasIPsChanged, h1, h2]
    | some cachedState =>
      simp [hasIPsChanged, h1, h2, ipSetsDiffer_eq_false_iff]

/-- Counterexample to claim C1 as stated: the cached list
`["1.2.3.4", "1.2.3.4"]` and the current list `["1.2.3.4"]` differ as
multisets (they are not permutations of each other), yet `hasIPsChanged`
returns false, because the comparison deduplicates both sides (JS `Set`). -/
theorem hasIPsChanged_multiset_counterexample :
    ¬ (["1.2.3.4", "1.2.3.4"] : List String).Perm ["1.2.3.4"] ∧
    hasIPsChanged [("app", [("z", ["1.2.3.4", "1.2.3.4"])])] "app" ["1.2.3.4"] "z" = false := by
  constructor
  · intro h
    have := h.length_eq
    simp at this
  · decide

/-! ### Claim C2: IP normalization toward the gateway -/

/-- Claim C2 fails on the code: `cleanIPs` applies `split(':')[0]` before
removing brackets, so the IPv6 literal `[2001:db8::1]:8080` is truncated
at its first colon and `2001` is submitted instead of `2001:db8::1`; the
`split(':')[0]` in `getAppMasterIpFromFdm` truncates the same way.  An
IPv4 address with a port is handled as the claim describes. -/
theorem cleanIPs_ipv6_mangled :
    cleanIPs ["[2001:db8::1]:8080"] = ["2001"] ∧
    splitHead "[2001:db8::1]:8080" = "[2001" ∧
    cleanIPs ["1.2.3.4:8080"] = ["1.2.3.4"] ∧
    ("2001" : String) ≠ "2001:db8::1" := by
  refine ⟨?_, ?_, ?_, ?_⟩ <;> decide

/-! ### Claim C3: the TTL submitted per zone -/

/-- Claim C3 fails on the code: `createGameDNSRecords` has only the three
parameters `(appName, serverIPs, zone)`, so the `zone.ttl` passed as a
fourth argument by `processApp` is dropped, and the POSTed `ttl` is the
read `config.dns.ttl` — a key `config/default.js` does not define
(`undefined`, i.e. `none`) — while the zone's configured TTL is 300. -/
theorem createGameDNSRecords_ttl_bug :
    createGameDNSRecords true defaultConfig "minecraftApp" ["1.2.3.4"]
        (some "app2.runonflux.io")
      = some ⟨some "app2.runonflux.io", ⟨"minecraftApp", "A", ["1.2.3.4"], none⟩⟩ ∧
    defaultConfig.zones.map Zone.ttl = [300] ∧
    (none : Option Nat) ≠ some 300 := by
  refine ⟨?_, ?_, ?_⟩ <;> decide

/-! ### Claim C7: the FDM shard partition -/

/-- Claim C7: `getFdmIndex` is total with image inside {1, 2, 3, 4}; the
empty name maps to 1; a leading character whose lowercase form lies in
`h`-`n` maps to 2, in `o`-`u` to 3, in `v`-`z` to 4, and any other leading
character (`a`-`g`, digits, symbols, …) to the default 1; the index
depends only on the lowercased leading character, so case never matters.
Determinism and purity are intrinsic: the index is a function of the name
alone. -/
theorem getFdmIndex_partition :
    (getFdmIndex "" = 1) ∧
    (∀ s : String,
      getFdmIndex s = 1 ∨ getFdmIndex s = 2 ∨ getFdmIndex s = 3 ∨ getFdmIndex s = 4) ∧
    (∀ (c : Char) (rest : List Char),
      (('h' ≤ jsToLower c ∧ jsToLower c ≤ 'n') →
        getFdmIndex (String.mk (c :: rest)) = 2) ∧
      (('o' ≤ jsToLower c ∧ jsToLower c ≤ 'u') →
        getFdmIndex (String.mk (c :: rest)) = 3) ∧
      (('v' ≤ jsToLower c ∧ jsToLower c ≤ 'z') →
        getFdmIndex (String.mk (c :: rest)) = 4) ∧
      ((¬('h' ≤ jsToLower c ∧ jsToLower c ≤ 'n') ∧
        ¬('o' ≤ jsToLower c ∧ jsToLower c ≤ 'u') ∧
        ¬('v' ≤ jsToLower c ∧ jsToLower c ≤ 'z')) →
        getFdmIndex (String.mk (c :: rest)) = 1)) ∧
    (∀ (c c' : Char) (rest rest' : List Char), jsToLower c = jsToLower c' →
      getFdmIndex (String.mk (c :: rest)) = getFdmIndex (String.mk (c' :: rest'))) := by
  have hcons : ∀ (c : Char) (rest : List Char),
      getFdmIndex (String.mk (c :: rest)) =
        if 'h' ≤ jsToLower c ∧ jsToLower c ≤ 'n' then 2
        else if 'o' ≤ jsToLower c ∧ jsToLower c ≤ 'u' then 3
        else if 'v' ≤ jsToLower c ∧ jsToLower c ≤ 'z' then 4
        else 1 := fun c rest => rfl
  refine ⟨by decide, ?_, ?_, ?_⟩
  · intro s
    obtain ⟨l⟩ := s
    cases l with
    | nil => left; rfl
    | cons c rest =>
      rw [hcons c rest]
      split_ifs <;> simp
  · intro c rest
    rw [hcons c rest]
    refine ⟨fun h => ?_, fun h => ?_, fun h => ?_, fun h => ?_⟩
    · rw [if_pos h]
    · rw [if_neg ?_, if_pos h]
      rintro ⟨_, hn⟩
      exact absurd (le_trans h.1 hn) (by decide)
    · rw [if_neg ?_, if_neg ?_, if_pos h]
      · rintro ⟨_, hu⟩
        exact absurd (le_trans h.1 hu) (by decide)
      · rintro ⟨_, hn⟩
        exact absurd (le_trans h.1 hn) (by decide)
    · rw [if_neg h.1, if_neg h.2.1, if_neg h.2.2]
  · intro c c' rest rest' h
    rw [hcons c rest, hcons c' rest', h]

/-- Witness for C7: the uppercase leading character `H` lowercases into
the `h`-`n` range and is routed to shard 2. -/
theorem getFdmIndex_partition_witness :
    ('h' ≤ jsToLower 'H' ∧ jsToLower 'H' ≤ 'n') ∧
    getFdmIndex (String.mk ['H']) = 2 :=
  ⟨by decide, (getFdmIndex_partition.2.2.1 'H' []).1 (by decide)⟩

/-! ### Claim C8: the game-app classifier -/

theorem strStarts_iff (pre s : List Char) :
    strStarts pre s = true ↔ ∃ t, s = pre ++ t := by
  induction pre generalizing s with
  | nil => simp [strStarts]
  | cons a as ih =>
    cases s with
    | nil => simp [strStarts]
    | cons b bs =>
      simp only [strStarts, Bool.and_eq_true, beq_iff_eq, ih, List.cons_append,
        List.cons.injEq]
      constructor
      · rintro ⟨rfl, t, rfl⟩
        exact ⟨t, rfl, rfl⟩
      · rintro ⟨t, rfl, rfl⟩
        exact ⟨rfl, t, rfl⟩

theorem strHasSub_iff (sub s : List Char) :
    strHasSub sub s = true ↔ ∃ p q, s = p ++ sub ++ q := by
  induction s with
  | nil =>
    simp only [strHasSub, strStarts_iff]
    constructor
    · rintro ⟨t, ht⟩
      obtain ⟨rfl, rfl⟩ := List.append_eq_nil.1 ht.symm
      exact ⟨[], [], rfl⟩
    · rintro ⟨p, q, hpq⟩
      obtain ⟨h1, rfl⟩ := List.append_eq_nil.1 hpq.symm
      obtain ⟨rfl, rfl⟩ := List.append_eq_nil.1 h1
      exact ⟨[], rfl⟩
  | cons c t ih =>
    simp only [strHasSub, Bool.or_eq_true, strStarts_iff, ih]
    constructor
    · rintro (⟨q, hq⟩ | ⟨p, q, hpq⟩)
      · exact ⟨[], q, by simpa using hq⟩
      · exact ⟨c :: p, q, by simp [hpq]⟩
    · rintro ⟨p, q, hpq⟩
      cases p with
      | nil =>
        left
        exact ⟨q, by simpa using hpq⟩
      | cons x xs =>
        right
        simp only [List.cons_append, List.cons.injEq] at hpq
        obtain ⟨rfl, ht⟩ := hpq
        exact ⟨xs, q, ht⟩

theorem jsIncludes_iff (s sub : String) :
    jsIncludes s sub = true ↔ ∃ p q, s.toList = p ++ sub.toList ++ q :=
  strHasSub_iff sub.toList s.toList

theorem isGModeApp_iff (app : AppSpec) :
    isGModeApp app = true ↔
      ((app.version ≤ 3 ∧ ∃ cd, app.containerData = some cd ∧
          ∃ p q, cd.toList = p ++ "g:".toList ++ q) ∨
       (3 < app.version ∧ ∃ comps, app.compose = some comps ∧
          ∃ comp ∈ comps, ∃ cd, comp.containerData = some cd ∧
            ∃ p q, cd.toList = p ++ "g:".toList ++ q)) := by
  unfold isGModeApp
  by_cases hv : app.version ≤ 3
  · rw [if_pos hv]
    cases hcd : app.containerData with
    | none => simp [hv, hcd]
    | some cd => simp [hv, hcd, jsIncludes_iff, Nat.not_lt.2 hv]
  · rw [if_neg hv]
    cases hcp : app.compose with
    | none => simp [hv, hcp]
    | some comps =>
      simp only [hv, hcp, false_and, Option.some.injEq, List.any_eq_true,
        Nat.not_le.1 hv, true_and, false_or]
      constructor
      · rintro ⟨comp, hcomp, hdata⟩
        cases hcd : comp.containerData with
        | none => rw [hcd] at hdata; exact absurd hdata (by simp)
        | some cd =>
          rw [hcd] at hdata
          exact ⟨comps, rfl, comp, hcomp, cd, hcd, (jsIncludes_iff cd "g:").1 hdata⟩
      · rintro ⟨comps', hcomps', comp, hcomp, cd, hcd, hsub⟩
        subst hcomps'
        refine ⟨comp, hcomp, ?_⟩
        rw [hcd]
        exact (jsIncludes_iff cd "g:").2 hsub

theorem isGameApp_iff (appName : String) (gameTypes : List String) :
    isGameApp appName gameTypes = true ↔
      ∃ gt ∈ gameTypes, ∃ t,
        (jsStringToLower appName).toList = (jsStringToLower gt).toList ++ t := by
  unfold isGameApp
  simp [List.any_eq_true, strStarts_iff]

/-- Claim C8: an application record is in the classifier's output iff it
is in the input, is single-active-instance (for `version ≤ 3` its
container descriptor contains the `g:` marker; otherwise some component
of its `compose` list does), and its name, lowercased, starts with at
least one configured name beginning (lowercased) — an any-match over the
configured list. -/
theorem filterGameApps_mem_iff (appSpecs : List AppSpec) (gameTypes : List String)
    (app : AppSpec) :
    app ∈ filterGameApps appSpecs gameTypes ↔
      app ∈ appSpecs ∧
      ((app.version ≤ 3 ∧ ∃ cd, app.containerData = some cd ∧
          ∃ p q, cd.toList = p ++ "g:".toList ++ q) ∨
       (3 < app.version ∧ ∃ comps, app.compose = some comps ∧
          ∃ comp ∈ comps, ∃ cd, comp.containerData = some cd ∧
            ∃ p q, cd.toList = p ++ "g:".toList ++ q)) ∧
      (∃ gt ∈ gameTypes, ∃ t,
        (jsStringToLower app.name).toList = (jsStringToLower gt).toList ++ t) := by
  unfold filterGameApps
  rw [List.mem_filter, Bool.and_eq_true, ← isGModeApp_iff, ← isGameApp_iff]

/-! ### Removal handling: per-app case lemmas -/

theorem processRemovedApp_no_state (cfg : Config) (deleteOk : String → String → Bool)
    (now : Nat) (app : String) (st : ManagerState)
    (h : mapLookup st.appsDNSState app = none) :
    processRemovedApp cfg deleteOk now app st = (st, []) := by
  simp [processRemovedApp, h]

theorem processRemovedApp_empty_state (cfg : Config) (deleteOk : String → String → Bool)
    (now : Nat) (app : String) (st : ManagerState)
    (h : mapLookup st.appsDNSState app = some []) :
    processRemovedApp cfg deleteOk now app st = (st, []) := by
  simp [processRemovedApp, h]

theorem processRemovedApp_start_tracking (cfg : Config) (deleteOk : String → String → Bool)
    (now : Nat) (app : String) (st : ManagerState) (cs : List (String × List String))
    (hcs : mapLookup st.appsDNSState app = some cs) (hne : cs ≠ [])
    (ht : mapLookup st.appLastSeenTimestamps app = none) :
    processRemovedApp cfg deleteOk now app st =
      ({ st with appLastSeenTimestamps := mapInsert st.appLastSeenTimestamps app now },
       []) := by
  simp [processRemovedApp, hcs, ht, List.length_eq_zero, hne]

theorem processRemovedApp_wait (cfg : Config) (deleteOk : String → String → Bool)
    (now : Nat) (app : String) (st : ManagerState) (cs : List (String × List String))
    (t : Nat) (hcs : mapLookup st.appsDNSState app = some cs) (hne : cs ≠ [])
    (ht : mapLookup st.appLastSeenTimestamps app = some t)
    (hgr : now - t < cfg.deletionGracePeriodMs) :
    processRemovedApp cfg deleteOk now app st = (st, []) := by
  simp [processRemovedApp, hcs, ht, List.length_eq_zero, hne, Nat.not_le.2 hgr]

theorem processRemovedApp_fire (cfg : Config) (deleteOk : String → String → Bool)
    (now : Nat) (app : String) (st : ManagerState) (cs : List (String × List String))
    (t : Nat) (hcs : mapLookup st.appsDNSState app = some cs) (hne : cs ≠ [])
    (ht : mapLookup st.appLastSeenTimestamps app = some t)
    (hgr : cfg.deletionGracePeriodMs ≤ now - t) :
    processRemovedApp cfg deleteOk now app st =
      ({ st with
          appsDNSState := mapErase st.appsDNSState app,
          appLastSeenTimestamps := mapErase st.appLastSeenTimestamps app },
       deleteAllZones cfg.zones deleteOk app) := by
  simp [processRemovedApp, hcs, ht, List.length_eq_zero, hne, hgr]

theorem processRemovedApp_other (cfg : Config) (deleteOk : String → String → Bool)
    (now : Nat) (b : String) (st : ManagerState) (a : String) (hba : b ≠ a) :
    mapLookup (processRemovedApp cfg deleteOk now b st).1.appsDNSState a
      = mapLookup st.appsDNSState a ∧
    mapLookup (processRemovedApp cfg deleteOk now b st).1.appLastSeenTimestamps a
      = mapLookup st.appLastSeenTimestamps a ∧
    ∀ e ∈ (processRemovedApp cfg deleteOk now b st).2, e.app = b := by
  cases h1 : mapLookup st.appsDNSState b with
  | none => simp [processRemovedApp, h1]
  | some cs =>
    by_cases hlen : cs.length = 0
    · simp [processRemovedApp, h1, hlen]
    · cases h2 : mapLookup st.appLastSeenTimestamps b with
      | none => simp [processRemovedApp, h1, hlen, h2, mapLookup_insert, hba]
      | some t =>
        by_cases hgr : cfg.deletionGracePeriodMs ≤ now - t
        · simp [processRemovedApp, h1, hlen, h2, hgr, mapLookup_erase, hba,
            deleteAllZones]
        · simp [processRemovedApp, h1, hlen, h2, hgr]

/-! ### Removal handling: fold lemmas -/

theorem processRemovedApps_preserve (cfg : Config) (deleteOk : String → String → Bool)
    (now : Nat) (a : String) (cs : List (String × List String)) (t : Nat)
    (hne : cs ≠ []) (hgr : now - t < cfg.deletionGracePeriodMs) :
    ∀ (apps : List String) (st : ManagerState),
      mapLookup st.appsDNSState a = some cs →
      mapLookup st.appLastSeenTimestamps a = some t →
      mapLookup (processRemovedApps cfg deleteOk now apps st).1.appsDNSState a = some cs ∧
      mapLookup (processRemovedApps cfg deleteOk now apps st).1.appLastSeenTimestamps a
        = some t ∧
      ∀ e ∈ (processRemovedApps cfg deleteOk now apps st).2, e.app ≠ a := by
  intro apps
  induction apps with
  | nil =>
    intro st hcs ht
    simpa [processRemovedApps] using ⟨hcs, ht⟩
  | cons b rest ih =>
    intro st hcs ht
    rcases eq_or_ne b a with rfl | hba
    · have hstep := processRemovedApp_wait cfg deleteOk now b st cs t hcs hne ht hgr
      simp only [processRemovedApps, hstep]
      simpa using ih st hcs ht
    · obtain ⟨h1, h2, h3⟩ := processRemovedApp_other cfg deleteOk now b st a hba
      simp only [processRemovedApps]
      obtain ⟨ih1, ih2, ih3⟩ :=
        ih (processRemovedApp cfg deleteOk now b st).1 (h1.trans hcs) (h2.trans ht)
      refine ⟨ih1, ih2, ?_⟩
      intro e he
      rcases List.mem_append.1 he with he | he
      · rw [h3 e he]; exact hba
      · exact ih3 e he

theorem processRemovedApps_none_preserved (cfg : Config)
    (deleteOk : String → String → Bool) (now : Nat) (a : String) :
    ∀ (apps : List String) (st : ManagerState),
      mapLookup st.appsDNSState a = none →
      mapLookup st.appLastSeenTimestamps a = none →
      mapLookup (processRemovedApps cfg deleteOk now apps st).1.appsDNSState a = none ∧
      mapLookup (processRemovedApps cfg deleteOk now apps st).1.appLastSeenTimestamps a
        = none := by
  intro apps
  induction apps with
  | nil =>
    intro st hcs ht
    simpa [processRemovedApps] using ⟨hcs, ht⟩
  | cons b rest ih =>
    intro st hcs ht
    rcases eq_or_ne b a with rfl | hba
    · have hstep := processRemovedApp_no_state cfg deleteOk now b st hcs
      simp only [processRemovedApps, hstep]
      simpa using ih st hcs ht
    · obtain ⟨h1, h2, _⟩ := processRemovedApp_other cfg deleteOk now b st a hba
      simp only [processRemovedApps]
      exact ih (processRemovedApp cfg deleteOk now b st).1 (h1.trans hcs) (h2.trans ht)

theorem processRemovedApps_fire (cfg : Config) (deleteOk : String → String → Bool)
    (now : Nat) (a : String) (cs : List (String × List String)) (t : Nat)
    (hne : cs ≠ []) (hgr : cfg.deletionGracePeriodMs ≤ now - t) :
    ∀ (apps : List String) (st : ManagerState),
      a ∈ apps →
      mapLookup st.appsDNSState a = some cs →
      mapLookup st.appLastSeenTimestamps a = some t →
      mapLookup (processRemovedApps cfg deleteOk now apps st).1.appsDNSState a = none ∧
      mapLookup (processRemovedApps cfg deleteOk now apps st).1.appLastSeenTimestamps a
        = none ∧
      ∀ z ∈ cfg.zones, (⟨a, z.name, deleteOk a z.name⟩ : DeleteEvent)
        ∈ (processRemovedApps cfg deleteOk now apps st).2 := by
  intro apps
  induction apps with
  | nil => intro st hmem; exact absurd hmem (List.not_mem_nil a)
  | cons b rest ih =>
    intro st hmem hcs ht
    rcases eq_or_ne b a with rfl | hba
    · have hstep := processRemovedApp_fire cfg deleteOk now b st cs t hcs hne ht hgr
      simp only [processRemovedApps, hstep]
      have hnone1 : mapLookup (mapErase st.appsDNSState b) b = none := by
        simp [mapLookup_erase]
      have hnone2 : mapLookup (mapErase st.appLastSeenTimestamps b) b = none := by
        simp [mapLookup_erase]
      obtain ⟨hr1, hr2⟩ := processRemovedApps_none_preserved cfg deleteOk now b rest
        { st with
            appsDNSState := mapErase st.appsDNSState b,
            appLastSeenTimestamps := mapErase st.appLastSeenTimestamps b }
        hnone1 hnone2
      refine ⟨by simpa using hr1, by simpa using hr2, ?_⟩
      intro z hz
      exact List.mem_append_left _ (List.mem_map_of_mem _ hz)
    · have hmem' : a ∈ rest := by
        rcases List.mem_cons.1 hmem with h | h
        · exact absurd h.symm hba
        · exact h
      obtain ⟨h1, h2, _⟩ := processRemovedApp_other cfg deleteOk now b st a hba
      simp only [processRemovedApps]
      obtain ⟨ih1, ih2, ih3⟩ :=
        ih (processRemovedApp cfg deleteOk now b st).1 hmem' (h1.trans hcs) (h2.trans ht)
      refine ⟨ih1, ih2, ?_⟩
      intro z hz
      exact List.mem_append_right _ (ih3 z hz)

theorem processRemovedApps_skip (cfg : Config) (deleteOk : String → String → Bool)
    (now : Nat) (a : String) :
    ∀ (apps : List String) (st : ManagerState),
      (mapLookup st.appsDNSState a = none ∨ mapLookup st.appsDNSState a = some []) →
      mapLookup (processRemovedApps cfg deleteOk now apps st).1.appsDNSState a
        = mapLookup st.appsDNSState a ∧
      mapLookup (processRemovedApps cfg deleteOk now apps st).1.appLastSeenTimestamps a
        = mapLookup st.appLastSeenTimestamps a ∧
      ∀ e ∈ (processRemovedApps cfg deleteOk now apps st).2, e.app ≠ a := by
  intro apps
  induction apps with
  | nil =>
    intro st _
    simp [processRemovedApps]
  | cons b rest ih =>
    intro st hcs
    rcases eq_or_ne b a with rfl | hba
    · have hstep : processRemovedApp cfg deleteOk now b st = (st, []) := by
        rcases hcs with h | h
        · exact processRemovedApp_no_state cfg deleteOk now b st h
        · exact processRemovedApp_empty_state cfg deleteOk now b st h
      simp only [processRemovedApps, hstep]
      simpa using ih st hcs
    · obtain ⟨h1, h2, h3⟩ := processRemovedApp_other cfg deleteOk now b st a hba
      simp only [processRemovedApps]
      have hcs' : mapLookup (processRemovedApp cfg deleteOk now b st).1.appsDNSState a = none
          ∨ mapLookup (processRemovedApp cfg deleteOk now b st).1.appsDNSState a = some [] := by
        rcases hcs with h | h
        · exact Or.inl (h1.trans h)
        · exact Or.inr (h1.trans h)
      obtain ⟨ih1, ih2, ih3⟩ := ih (processRemovedApp cfg deleteOk now b st).1 hcs'
      refine ⟨ih1.trans h1, ih2.trans h2, ?_⟩
      intro e he
      rcases List.mem_append.1 he with he | he
      · rw [h3 e he]; exact hba
      · exact ih3 e he

/-! ### Reappearance clearing lemmas -/

theorem clearReappeared_none (a : String) :
    ∀ (seen : List String) (ts : List (String × Nat)),
      mapLookup ts a = none → mapLookup (clearReappeared ts seen) a = none := by
  intro seen
  induction seen with
  | nil => intro ts h; exact h
  | cons b rest ih =>
    intro ts h
    simp only [clearReappeared]
    split
    · refine ih _ ?_
      rw [mapLookup_erase]
      split <;> simp [h]
    · exact ih _ h

theorem clearReappeared_lookup_of_mem (a : String) :
    ∀ (seen : List String) (ts : List (String × Nat)),
      a ∈ seen → mapLookup (clearReappeared ts seen) a = none := by
  intro seen
  induction seen with
  | nil => intro ts h; exact absurd h (List.not_mem_nil a)
  | cons b rest ih =>
    intro ts hmem
    by_cases hr : a ∈ rest
    · simp only [clearReappeared]
      split <;> exact ih _ hr
    · have hab : a = b := by
        rcases List.mem_cons.1 hmem with h | h
        · exact h
        · exact absurd h hr
      subst hab
      simp only [clearReappeared]
      split
      · refine clearReappeared_none a rest _ ?_
        rw [mapLookup_erase, if_pos rfl]
      · rename_i hsome
        refine clearReappeared_none a rest _ ?_
        exact Option.not_isSome_iff_eq_none.1 hsome

theorem clearReappeared_lookup_of_not_mem (a : String) :
    ∀ (seen : List String) (ts : List (String × Nat)),
      a ∉ seen → mapLookup (clearReappeared ts seen) a = mapLookup ts a := by
  intro seen
  induction seen with
  | nil => intro ts _; rfl
  | cons b rest ih =>
    intro ts hmem
    have hab : b ≠ a := fun h => hmem (h ▸ List.mem_cons_self b rest)
    have hrest : a ∉ rest := fun h => hmem (List.mem_cons_of_mem b h)
    simp only [clearReappeared]
    split
    · rw [ih _ hrest, mapLookup_erase, if_neg hab]
    · exact ih _ hrest

/-! ### Claims C4, C5, C6: deletion grace tracking -/

/-- Claim C4: for an app in the removed set with a non-empty cache entry
that is already tracked as missing since `t`: while `now - t` is below the
grace period, no delete is issued for it and both its cache entry and its
timestamp survive the iteration; once `now - t` reaches the grace period,
a delete call is issued to every configured zone (the outcome oracle
`deleteOk` being arbitrary shows per-zone failures do not stop the loop),
and afterwards both the cache entry and the timestamp are gone regardless
of which deletes succeeded. -/
theorem handleRemovedApps_grace (cfg : Config) (deleteOk : String → String → Bool)
    (currentSeenApps : List String) (now : Nat) (st : ManagerState) (app : String)
    (cs : List (String × List String)) (t : Nat)
    (hseen : app ∈ st.lastSeenApps) (hcur : app ∉ currentSeenApps)
    (hcs : mapLookup st.appsDNSState app = some cs) (hne : cs ≠ [])
    (ht : mapLookup st.appLastSeenTimestamps app = some t) :
    (now - t < cfg.deletionGracePeriodMs →
      mapLookup (handleRemovedApps cfg deleteOk currentSeenApps now st).1.appsDNSState app
        = some cs ∧
      mapLookup
          (handleRemovedApps cfg deleteOk currentSeenApps now st).1.appLastSeenTimestamps
          app = some t ∧
      ∀ e ∈ (handleRemovedApps cfg deleteOk currentSeenApps now st).2, e.app ≠ app) ∧
    (cfg.deletionGracePeriodMs ≤ now - t →
      mapLookup (handleRemovedApps cfg deleteOk currentSeenApps now st).1.appsDNSState app
        = none ∧
      mapLookup
          (handleRemovedApps cfg deleteOk currentSeenApps now st).1.appLastSeenTimestamps
          app = none ∧
      ∀ z ∈ cfg.zones, (⟨app, z.name, deleteOk app z.name⟩ : DeleteEvent)
        ∈ (handleRemovedApps cfg deleteOk currentSeenApps now st).2) := by
  constructor
  · intro hgr
    obtain ⟨h1, h2, h3⟩ := processRemovedApps_preserve cfg deleteOk now app cs t hne hgr
      (st.lastSeenApps.filter (fun a => decide (a ∉ currentSeenApps))) st hcs ht
    simp only [handleRemovedApps]
    refine ⟨by simpa using h1, ?_, by simpa using h3⟩
    rw [clearReappeared_lookup_of_not_mem app currentSeenApps _ hcur]
    exact h2
  · intro hgr
    have hmem : app ∈ st.lastSeenApps.filter (fun a => decide (a ∉ currentSeenApps)) :=
      List.mem_filter.2 ⟨hseen, by simpa using hcur⟩
    obtain ⟨h1, h2, h3⟩ := processRemovedApps_fire cfg deleteOk now app cs t hne hgr
      (st.lastSeenApps.filter (fun a => decide (a ∉ currentSeenApps))) st hmem hcs ht
    simp only [handleRemovedApps]
    refine ⟨by simpa using h1, ?_, by simpa using h3⟩
    exact clearReappeared_none app currentSeenApps _ h2

/-- Witness for C4 at the shipped one-hour grace period: app
`minecraftA`, first seen missing at 1000 ms, now 3601000 ms (elapsed
exactly the grace period), every per-zone delete failing: its cache entry
and timestamp are removed and a delete was issued to the configured
zone. -/
theorem handleRemovedApps_grace_witness :
    mapLookup (handleRemovedApps defaultConfig (fun _ _ => false) [] 3601000
        ⟨[("minecraftA", [("app2.runonflux.io", ["1.2.3.4"])])], ["minecraftA"],
          [("minecraftA", 1000)]⟩).1.appsDNSState "minecraftA" = none ∧
    mapLookup (handleRemovedApps defaultConfig (fun _ _ => false) [] 3601000
        ⟨[("minecraftA", [("app2.runonflux.io", ["1.2.3.4"])])], ["minecraftA"],
          [("minecraftA", 1000)]⟩).1.appLastSeenTimestamps "minecraftA" = none ∧
    ∀ z ∈ defaultConfig.zones, (⟨"minecraftA", z.name, false⟩ : DeleteEvent)
      ∈ (handleRemovedApps defaultConfig (fun _ _ => false) [] 3601000
        ⟨[("minecraftA", [("app2.runonflux.io", ["1.2.3.4"])])], ["minecraftA"],
          [("minecraftA", 1000)]⟩).2 :=
  (handleRemovedApps_grace defaultConfig (fun _ _ => false) [] 3601000
    ⟨[("minecraftA", [("app2.runonflux.io", ["1.2.3.4"])])], ["minecraftA"],
      [("minecraftA", 1000)]⟩ "minecraftA" [("app2.runonflux.io", ["1.2.3.4"])] 1000
    (by decide) (by decide) (by decide) (by decide) (by decide)).2 (by decide)

/-- Claim C5: a removed app whose cache entry is absent or empty (never
successfully written) is skipped entirely: its timestamp entry is exactly
what it was before the iteration (in particular none is created) and no
delete call is issued for it. -/
theorem handleRemovedApps_never_written (cfg : Config)
    (deleteOk : String → String → Bool) (currentSeenApps : List String) (now : Nat)
    (st : ManagerState) (app : String)
    (hcur : app ∉ currentSeenApps)
    (hcs : mapLookup st.appsDNSState app = none ∨
      mapLookup st.appsDNSState app = some []) :
    mapLookup
        (handleRemovedApps cfg deleteOk currentSeenApps now st).1.appLastSeenTimestamps
        app = mapLookup st.appLastSeenTimestamps app ∧
    ∀ e ∈ (handleRemovedApps cfg deleteOk currentSeenApps now st).2, e.app ≠ app := by
  obtain ⟨_, h2, h3⟩ := processRemovedApps_skip cfg deleteOk now app
    (st.lastSeenApps.filter (fun a => decide (a ∉ currentSeenApps))) st hcs
  simp only [handleRemovedApps]
  refine ⟨?_, by simpa using h3⟩
  rw [clearReappeared_lookup_of_not_mem app currentSeenApps _ hcur]
  exact h2

/-- Witness for C5: removed app `minecraftB` with no cache entry: after the
iteration it is still untracked and no delete was issued. -/
theorem handleRemovedApps_never_written_witness :
    mapLookup (handleRemovedApps defaultConfig (fun _ _ => true) [] 5000
        ⟨[], ["minecraftB"], []⟩).1.appLastSeenTimestamps "minecraftB"
      = mapLookup ([] : List (String × Nat)) "minecraftB" ∧
    ∀ e ∈ (handleRemovedApps defaultConfig (fun _ _ => true) [] 5000
        ⟨[], ["minecraftB"], []⟩).2, e.app ≠ "minecraftB" :=
  handleRemovedApps_never_written defaultConfig (fun _ _ => true) [] 5000
    ⟨[], ["minecraftB"], []⟩ "minecraftB" (by decide) (Or.inl (by decide))

/-- Claim C6: after removal processing, no app of the current observed set
still has a `MissingSince` timestamp: the clearing pass removes every such
entry, and the removal pass only ever adds timestamps for apps outside the
observed set. -/
theorem handleRemovedApps_reappeared (cfg : Config) (deleteOk : String → String → Bool)
    (currentSeenApps : List String) (now : Nat) (st : ManagerState) (a : String)
    (ha : a ∈ currentSeenApps) :
    mapLookup
        (handleRemovedApps cfg deleteOk currentSeenApps now st).1.appLastSeenTimestamps
        a = none := by
  simp only [handleRemovedApps]
  exact clearReappeared_lookup_of_mem a currentSeenApps _ ha

/-- Witness for C6: app `minecraftC` reappears while tracked as missing:
after the iteration its timestamp entry is gone. -/
theorem handleRemovedApps_reappeared_witness :
    mapLookup (handleRemovedApps defaultConfig (fun _ _ => true) ["minecraftC"] 5000
        ⟨[("minecraftC", [("app2.runonflux.io", ["1.2.3.4"])])], ["minecraftC"],
          [("minecraftC", 1000)]⟩).1.appLastSeenTimestamps "minecraftC" = none :=
  handleRemovedApps_reappeared defaultConfig (fun _ _ => true) ["minecraftC"] 5000
    ⟨[("minecraftC", [("app2.runonflux.io", ["1.2.3.4"])])], ["minecraftC"],
      [("minecraftC", 1000)]⟩ "minecraftC" (by decide)

/-! ### Claim C9: empty inventory fetch -/

/-- Claim C9: when the inventory fetch yields no app specifications, the
iteration issues no upsert, no delete, performs no removal processing,
and returns the manager state (ReconciliationState, MissingSince,
LastSeenSet) exactly as it was. -/
theorem runProcessingLoop_empty_fetch (cfg : Config) (ready : Bool)
    (fdm : String → Option (List String)) (createOk deleteOk : String → String → Bool)
    (now : Nat) (st : ManagerState) :
    runProcessingLoop cfg ready [] fdm createOk deleteOk now st = ⟨st, [], []⟩ := rfl

/-! ### Claim C10: single-IP upserts -/

theorem processAppZones_content (cfg : Config) (ready : Bool)
    (createOk : String → String → Bool) (appName cleanMasterIP : String) :
    ∀ (zones : List Zone) (state : List (String × List (String × List String))),
      ∀ req ∈ (processAppZones cfg ready createOk appName cleanMasterIP zones state).2.1,
        req.body.content = [cleanIP cleanMasterIP] := by
  intro zones
  induction zones with
  | nil =>
    intro state req hreq
    simp [processAppZones] at hreq
  | cons z rest ih =>
    intro state req hreq
    simp only [processAppZones] at hreq
    cases hch : hasIPsChanged state appName [cleanMasterIP] z.name with
    | false =>
      rw [hch] at hreq
      simp only [Bool.not_false, if_true] at hreq
      exact ih state req hreq
    | true =>
      rw [hch] at hreq
      simp only [Bool.not_true, Bool.false_eq_true, if_false] at hreq
      cases ready with
      | false =>
        simp only [createGameDNSRecords, Bool.not_false, if_true] at hreq
        exact ih state req hreq
      | true =>
        have hcreate : createGameDNSRecords true cfg appName [cleanMasterIP]
            (some z.name) = some ⟨some z.name,
              ⟨appName, "A", cleanIPs [cleanMasterIP], cfg.dnsTtl⟩⟩ := rfl
        simp only [hcreate] at hreq
        by_cases hok : createOk appName z.name = true
        · rw [if_pos hok] at hreq
          rcases List.mem_cons.1 hreq with rfl | h
          · rfl
          · exact ih _ req h
        · rw [if_neg hok] at hreq
          rcases List.mem_cons.1 hreq with rfl | h
          · rfl
          · exact ih _ req h

theorem processApp_content (cfg : Config) (ready : Bool)
    (fdm : String → Option (List String)) (createOk : String → String → Bool)
    (app : AppSpec) (state : List (String × List (String × List String))) :
    ∀ req ∈ (processApp cfg ready fdm createOk app state).2.1,
      ∃ ip0 rest, fdm app.name = some (ip0 :: rest) ∧
        req.body.content = [cleanIP (stripBrackets (splitHead ip0))] := by
  intro req hreq
  cases hm : fdm app.name with
  | none =>
    simp [processApp, getAppMasterIpFromFdm, hm] at hreq
  | some ips =>
    cases ips with
    | nil => simp [processApp, getAppMasterIpFromFdm, hm] at hreq
    | cons ip0 r =>
      simp only [processApp, getAppMasterIpFromFdm, hm] at hreq
      exact ⟨ip0, r, rfl,
        processAppZones_content cfg ready createOk app.name
          (stripBrackets (splitHead ip0)) cfg.zones state req hreq⟩

theorem processApps_content (cfg : Config) (ready : Bool)
    (fdm : String → Option (List String)) (createOk : String → String → Bool) :
    ∀ (apps : List AppSpec) (state : List (String × List (String × List String))),
      ∀ req ∈ (processApps cfg ready fdm createOk apps state).2.1,
        ∃ appName ip0 rest, fdm appName = some (ip0 :: rest) ∧
          req.body.content = [cleanIP (stripBrackets (splitHead ip0))] := by
  intro apps
  induction apps with
  | nil =>
    intro state req hreq
    simp [processApps] at hreq
  | cons app rest ih =>
    intro state req hreq
    simp only [processApps] at hreq
    rcases List.mem_append.1 hreq with h | h
    · obtain ⟨ip0, r, hm, hc⟩ := processApp_content cfg ready fdm createOk app state req h
      exact ⟨app.name, ip0, r, hm, hc⟩
    · exact ih _ req h

/-- Claim C10: every upsert request issued by one loop iteration carries
exactly one IP address in its `content`, namely the first element of the
IP list the FDM shard reported for some app, transformed by
`split(':')[0]` and bracket removal — even when the shard reported several
IPs. -/
theorem runProcessingLoop_single_ip (cfg : Config) (ready : Bool) (specs : List AppSpec)
    (fdm : String → Option (List String)) (createOk deleteOk : String → String → Bool)
    (now : Nat) (st : ManagerState) :
    ∀ req ∈ (runProcessingLoop cfg ready specs fdm createOk deleteOk now st).upserts,
      (∃ appName ip0 rest, fdm appName = some (ip0 :: rest) ∧
        req.body.content = [cleanIP (stripBrackets (splitHead ip0))]) ∧
      req.body.content.length = 1 := by
  intro req hreq
  cases hs : specs.isEmpty with
  | true =>
    rw [runProcessingLoop, if_pos hs] at hreq
    exact absurd hreq (List.not_mem_nil req)
  | false =>
    rw [runProcessingLoop, if_neg (by simp [hs])] at hreq
    obtain ⟨n, ip0, r, hm, hc⟩ := processApps_content cfg ready fdm createOk
      (filterGameApps specs cfg.gameTypes) st.appsDNSState req hreq
    exact ⟨⟨n, ip0, r, hm, hc⟩, by rw [hc]; rfl⟩

/-- Witness for C10: the shard reports two IPs for `minecraftW` (the first
carrying a port); the one upsert issued submits exactly `["1.2.3.4"]`. -/
theorem runProcessingLoop_single_ip_witness :
    (⟨some "app2.runonflux.io", ⟨"minecraftW", "A", ["1.2.3.4"], none⟩⟩ : UpsertRequest)
      ∈ (runProcessingLoop defaultConfig true [⟨"minecraftW", 3, some "g:/data", none⟩]
          (fun _ => some ["1.2.3.4:30303", "5.6.7.8"]) (fun _ _ => true)
          (fun _ _ => true) 0 ⟨[], [], []⟩).upserts ∧
    (⟨some "app2.runonflux.io", ⟨"minecraftW", "A", ["1.2.3.4"], none⟩⟩
      : UpsertRequest).body.content.length = 1 :=
  ⟨by decide,
    (runProcessingLoop_single_ip defaultConfig true
      [⟨"minecraftW", 3, some "g:/data", none⟩]
      (fun _ => some ["1.2.3.4:30303", "5.6.7.8"]) (fun _ _ => true) (fun _ _ => true)
      0 ⟨[], [], []⟩ _ (by decide)).2⟩

end FluxDns
